import Mathlib

/-!
Verification of the repository scraper (`src/support.py`, `src/scrap_repo.py`).

The development shallowly embeds the two Python modules:

* `support.get_all_files_from_path` — recursive enumeration of the files under
  a root directory via `os.walk`, optionally filtered by `os.path.splitext`
  extension membership;
* the `scrapper` class — index-checked file reads (`check_idx`,
  `get_file_content`, `__getitem__`, `get_chunks_from_file`), ignore-path
  filtering (`update_files_list`) and chunk building (`create_chunk`,
  `update_files_list_and_create_chunks`).

The filesystem is modelled by a finite directory tree `FSTree` carrying file
names, plus a content oracle `disk : String → Option String` (`none` models a
read that raises `IOError`).  Python string primitives (`os.path.join`,
`os.path.splitext`, `os.path.dirname`, `str.strip`, the substring operator
`in`) are modelled character-list by character-list after CPython's posixpath
implementations.
-/

/-- Python `str.isspace`-style whitespace test used by `str.strip`. -/
def pyIsSpace (c : Char) : Bool := c.isWhitespace

/-- Python `str.strip()`: drop leading and trailing whitespace. -/
def pstrip (s : String) : String :=
  ⟨((s.data.dropWhile pyIsSpace).reverse.dropWhile pyIsSpace).reverse⟩

/-- Does the string start with the posix path separator. -/
def startsWithSep (s : String) : Bool :=
  match s.data with
  | [] => false
  | c :: _ => c = '/'

/-- Does the string end with the posix path separator. -/
def endsWithSep (s : String) : Bool :=
  match s.data.getLast? with
  | some c => c = '/'
  | none => false

/-- Python `os.path.join(a, b)` on posix for a single component `b`: if `b` is
absolute it wins; otherwise a separator is inserted unless `a` is empty or
already ends with one. -/
def osJoin (a b : String) : String :=
  if startsWithSep b then b
  else if a = "" ∨ endsWithSep a then a ++ b
  else a ++ "/" ++ b

/-- Python `os.path.dirname(p)` on posix: the prefix of `p` up to the last
separator, with trailing separators stripped unless the head is all
separators; the empty string when `p` has no separator. -/
def dirname (p : String) : String :=
  let rev := p.data.reverse
  let after := rev.takeWhile (fun ch => ch ≠ '/')
  if after.length = p.data.length then ""
  else
    let head := p.data.take (p.data.length - after.length)
    if head.all (fun ch => ch = '/') then ⟨head⟩
    else ⟨(head.reverse.dropWhile (fun ch => ch = '/')).reverse⟩

/-- Extension part of Python `os.path.splitext(p)` on posix: the suffix of the
basename starting at its last dot, provided some character of the basename
strictly before that dot is not itself a dot (leading dots of the basename
belong to the root, so dotfiles like `.bashrc` have empty extension). -/
def splitextExt (p : String) : String :=
  let b := (p.data.reverse.takeWhile (fun ch => ch ≠ '/')).reverse
  let rev := b.reverse
  let post := rev.takeWhile (fun ch => ch ≠ '.')
  if post.length = rev.length then ""
  else if ((rev.drop (post.length + 1)).reverse).any (fun ch => ch ≠ '.') then ⟨'.' :: post.reverse⟩
  else ""

/-- Modelled from the spec: the claimed notion of extension, "the substring of
the filename starting at the last `.` and including the dot, the empty string
for files with no extension".  Kept separate from `splitextExt` (the code's
semantics via `os.path.splitext`) so the two can be compared. -/
def extSpec (p : String) : String :=
  let b := (p.data.reverse.takeWhile (fun ch => ch ≠ '/')).reverse
  let rev := b.reverse
  let post := rev.takeWhile (fun ch => ch ≠ '.')
  if post.length = rev.length then ""
  else ⟨'.' :: post.reverse⟩

/-- Substring test on character lists: does `needle` occur contiguously inside
the second argument. -/
def containsSubL (needle : List Char) : List Char → Bool
  | [] => needle.isEmpty
  | c :: rest => needle.isPrefixOf (c :: rest) || containsSubL needle rest

/-- Python's `needle in hay` substring operator for strings. -/
def strContains (hay needle : String) : Bool :=
  containsSubL needle.data hay.data

mutual

/-- A directory of the modelled filesystem: named subdirectories (in listing
order) and the file names directly contained in it (in listing order). -/
inductive FSTree : Type where
  | node (subdirs : FSForest) (files : List String) : FSTree

/-- An ordered list of named subdirectories. -/
inductive FSForest : Type where
  | fnil : FSForest
  | fcons (name : String) (t : FSTree) (rest : FSForest) : FSForest

end

mutual

/-- Python `os.walk(p)` (top-down): yields `(dirpath, filenames)` for the root
directory first, then recursively for each subdirectory in listing order.
The `dirnames` component of the triple is unused by the source and omitted. -/
def osWalk (p : String) : FSTree → List (String × List String)
  | .node subdirs files => (p, files) :: osWalkForest p subdirs

/-- Walk every tree of a forest, in order, prefixing paths with `osJoin`. -/
def osWalkForest (p : String) : FSForest → List (String × List String)
  | .fnil => []
  | .fcons name t rest => osWalk (osJoin p name) t ++ osWalkForest p rest

end

/-- Body of the inner `for name in files` loop of
`support.get_all_files_from_path`: join the directory path with the file name;
if a filter list was passed, append the path only when its `splitext` extension
is a member, otherwise always append. -/
def processName (filetype_filter_list : Option (List String)) (p : String)
    (acc : List String) (name : String) : List String :=
  let file_path := osJoin p name
  match filetype_filter_list with
  | some l => if splitextExt file_path ∈ l then acc ++ [file_path] else acc
  | none => acc ++ [file_path]

/-- Body of the outer `for path, subdirs, files in os.walk(...)` loop of
`support.get_all_files_from_path`. -/
def processDir (filetype_filter_list : Option (List String))
    (acc : List String) (pf : String × List String) : List String :=
  pf.2.foldl (processName filetype_filter_list pf.1) acc

/-- Model of `support.get_all_files_from_path(path_to_explore, filetype_filter_list)`:
collect every file under the root, filtered by extension when a filter list is
given (`none` models Python `None`, `some []` an empty list). -/
def get_all_files_from_path (path_to_explore : String)
    (filetype_filter_list : Option (List String)) (t : FSTree) : List String :=
  (osWalk path_to_explore t).foldl (processDir filetype_filter_list) []

/-- Body of the `for tmp_file in tmp_files_list` loop of
`scrapper.update_files_list`: a file is appended unless some ignore entry is a
substring of its `dirname`. -/
def ignoreStep (paths_to_ignore_list : List String)
    (acc : List String) (tmp_file : String) : List String :=
  let tmp_file_path := dirname tmp_file
  if paths_to_ignore_list.any (fun path_to_ignore => strContains tmp_file_path path_to_ignore)
  then acc
  else acc ++ [tmp_file]

/-- Model of `scrapper.update_files_list`: enumerate files from the repository root and,
when an ignore list is given, drop the files whose containing directory path
contains an ignore entry as a substring. -/
def update_files_list (t : FSTree) (path_repo : String)
    (file_extension_filter : Option (List String))
    (paths_to_ignore_list : Option (List String)) : List String :=
  let tmp_files_list := get_all_files_from_path path_repo file_extension_filter t
  match paths_to_ignore_list with
  | some igl => tmp_files_list.foldl (ignoreStep igl) []
  | none => tmp_files_list

/-- Error taxonomy of the scraper: Python `IndexError` (raised by `check_idx`)
and `IOError`/`OSError` (raised by a failing file read). -/
inductive PyErr : Type where
  | indexError : PyErr
  | ioError : PyErr
deriving DecidableEq, Repr

/-- Model of `scrapper.check_idx(idx)`: raise `IndexError` when
`idx < 0 or idx >= len(self.files_list)`.  Python indices are arbitrary
integers, so `idx : Int`. -/
def check_idx (files_list : List String) (idx : Int) : Except PyErr Unit :=
  if idx < 0 ∨ (files_list.length : Int) ≤ idx then .error .indexError else .ok ()

/-- Reading a file's text and stripping it, as done by the body of
`scrapper.get_file_content`: `open(...).read().strip()`.  A `none` from the
disk oracle models a raised `IOError`. -/
def readStrip (disk : String → Option String) (file_path : String) : Option String :=
  (disk file_path).map pstrip

/-- Model of `scrapper.get_file_content(idx)`: validate the index, look the path up in
`files_list`, read the file and return the stripped content. -/
def get_file_content (disk : String → Option String) (files_list : List String)
    (idx : Int) : Except PyErr String :=
  match check_idx files_list idx with
  | .error e => .error e
  | .ok _ =>
    match files_list[idx.toNat]? with
    | none => .error .indexError
    | some file_path =>
      match readStrip disk file_path with
      | none => .error .ioError
      | some file_content => .ok file_content

/-- Model of `scrapper.__getitem__(idx)`: `check_idx` then `get_file_content`. -/
def getitem (disk : String → Option String) (files_list : List String)
    (idx : Int) : Except PyErr String :=
  match check_idx files_list idx with
  | .error e => .error e
  | .ok _ => get_file_content disk files_list idx

/-- Model of `scrapper.get_chunks_from_file(idx)`: validate the index, read the file's
content, and return `chunking_function(content)` when a chunking function is
set; the Python body has no `return` in the `None` case, so it returns `None`,
modelled as `.ok none`. -/
def get_chunks_from_file (chunking_function : Option (String → List String))
    (disk : String → Option String) (files_list : List String)
    (idx : Int) : Except PyErr (Option (List String)) :=
  match check_idx files_list idx with
  | .error e => .error e
  | .ok _ =>
    match get_file_content disk files_list idx with
    | .error e => .error e
    | .ok file_content =>
      match chunking_function with
      | some f => .ok (some (f file_content))
      | none => .ok none

/-- The `for idx in range(len(self.files_list))` loop of the
`chunking_function is not None` branch of `scrapper.create_chunk`, rendered as
recursion over the file list (each loop index is valid, so
`get_chunks_from_file(idx)` reduces to read-strip-chunk on the idx-th path).
Accumulates `self.chunks`; on a failed read the exception escapes, leaving the
chunks accumulated so far — the pair's boolean records normal completion. -/
def chunkLoop (f : String → List String) (disk : String → Option String) :
    List String → List String → List String × Bool
  | [], chunks => (chunks, true)
  | file_path :: rest, chunks =>
    match readStrip disk file_path with
    | none => (chunks, false)
    | some file_content => chunkLoop f disk rest (chunks ++ f file_content)

/-- The `for idx in range(len(self.files_list))` loop of the `else` branch of
`scrapper.create_chunk`, accumulating
`merged_content += file_content + "\n\n"`; `none` when a read raises. -/
def mergeLoop (disk : String → Option String) :
    List String → String → Option String
  | [], merged_content => some merged_content
  | file_path :: rest, merged_content =>
    match readStrip disk file_path with
    | none => none
    | some file_content => mergeLoop disk rest (merged_content ++ (file_content ++ "\n\n"))

/-- Model of `scrapper.create_chunk()`: reset `self.chunks` to `[]`, then either extend
it file by file with the chunking function's output, or append the single
blank-line-joined concatenation of all contents.  Returns the final value of
`self.chunks` paired with `true` when no read raised; on a raise the first
component is the value `self.chunks` is left holding. -/
def create_chunk (chunking_function : Option (String → List String))
    (disk : String → Option String) (files_list : List String) :
    List String × Bool :=
  match chunking_function with
  | some f => chunkLoop f disk files_list []
  | none =>
    match mergeLoop disk files_list "" with
    | none => ([], false)
    | some merged_content => ([merged_content], true)

/-- Mutable state of a `scrapper` instance: `self.files_list` and
`self.chunks`. -/
structure ScraperState : Type where
  files_list : List String
  chunks : List String
deriving DecidableEq, Repr

/-- Model of `scrapper.update_files_list` as a state update: wholesale replacement of
`files_list`. -/
def update_files_list_st (t : FSTree) (path_repo : String)
    (file_extension_filter paths_to_ignore_list : Option (List String))
    (s : ScraperState) : ScraperState :=
  { s with files_list := update_files_list t path_repo file_extension_filter paths_to_ignore_list }

/-- Model of `scrapper.create_chunk` as a state update: wholesale replacement of
`chunks` (the boolean records whether the rebuild completed without a read
error). -/
def create_chunk_st (chunking_function : Option (String → List String))
    (disk : String → Option String) (s : ScraperState) : ScraperState × Bool :=
  ({ s with chunks := (create_chunk chunking_function disk s.files_list).1 },
    (create_chunk chunking_function disk s.files_list).2)

/-- Model of `scrapper.update_files_list_and_create_chunks`: update the file list, then
rebuild the chunks. -/
def update_files_list_and_create_chunks (t : FSTree) (path_repo : String)
    (file_extension_filter paths_to_ignore_list : Option (List String))
    (chunking_function : Option (String → List String))
    (disk : String → Option String) (s : ScraperState) : ScraperState × Bool :=
  create_chunk_st chunking_function disk
    (update_files_list_st t path_repo file_extension_filter paths_to_ignore_list s)

/-- Specification-side view of the enumeration with no extension filter: every
file of every walked directory, in walk order. -/
def allLocated (root : String) (t : FSTree) : List String :=
  ((osWalk root t).map (fun pf => pf.2.map (osJoin pf.1))).flatten

/-- Specification-side predicate: does a file path pass the extension filter. -/
def keepB (filetype_filter_list : Option (List String)) (file_path : String) : Bool :=
  match filetype_filter_list with
  | some l => decide (splitextExt file_path ∈ l)
  | none => true

/-- Shifting an append through the left fold that implements `String.join`. -/
lemma string_foldl_append (l : List String) :
    ∀ (a b : String),
      l.foldl (fun r s => r ++ s) (a ++ b) = a ++ l.foldl (fun r s => r ++ s) b := by
  induction l with
  | nil => intro a b; rfl
  | cons y ys ih =>
    intro a b
    simp only [List.foldl_cons]
    rw [String.append_assoc]
    exact ih a (b ++ y)

/-- Unfolding `String.join` one element at a time. -/
lemma string_join_cons (x : String) (l : List String) :
    String.join (x :: l) = x ++ String.join l := by
  show l.foldl (fun r s => r ++ s) ("" ++ x) = x ++ l.foldl (fun r s => r ++ s) ""
  calc l.foldl (fun r s => r ++ s) ("" ++ x)
      = l.foldl (fun r s => r ++ s) (x ++ "") := by
        rw [String.empty_append, String.append_empty]
    _ = x ++ l.foldl (fun r s => r ++ s) "" := string_foldl_append l x ""

/-- One step of the inner enumeration loop appends the joined path exactly when
the filter keeps it. -/
lemma processName_eq (filt : Option (List String)) (p : String)
    (acc : List String) (name : String) :
    processName filt p acc name =
      acc ++ (if keepB filt (osJoin p name) then [osJoin p name] else []) := by
  cases filt with
  | none => simp [processName, keepB]
  | some l =>
    by_cases h : splitextExt (osJoin p name) ∈ l <;> simp [processName, keepB, h]

/-- The inner enumeration loop is an append of the filtered, joined names. -/
lemma foldl_processName (filt : Option (List String)) (p : String) :
    ∀ (names acc : List String),
      names.foldl (processName filt p) acc =
        acc ++ (names.map (osJoin p)).filter (keepB filt)
  | [], acc => by simp
  | n :: ns, acc => by
    rw [List.foldl_cons, processName_eq, foldl_processName filt p ns]
    by_cases h : keepB filt (osJoin p n) <;>
      simp [h, List.filter_cons, List.append_assoc]

/-- The outer enumeration loop is an append of the per-directory results. -/
lemma foldl_processDir (filt : Option (List String)) :
    ∀ (ws : List (String × List String)) (acc : List String),
      ws.foldl (processDir filt) acc =
        acc ++ (ws.map (fun pf => (pf.2.map (osJoin pf.1)).filter (keepB filt))).flatten
  | [], acc => by simp
  | pf :: rest, acc => by
    rw [List.foldl_cons]
    show rest.foldl (processDir filt) (processDir filt acc pf) = _
    rw [foldl_processDir filt rest]
    unfold processDir
    rw [foldl_processName]
    simp [List.append_assoc]

/-- Closed form of the file enumeration: walked directories, joined names,
extension filter. -/
lemma gaf_eq (root : String) (filt : Option (List String)) (t : FSTree) :
    get_all_files_from_path root filt t =
      ((osWalk root t).map (fun pf => (pf.2.map (osJoin pf.1)).filter (keepB filt))).flatten := by
  unfold get_all_files_from_path
  rw [foldl_processDir]
  simp

/-- With no extension filter, the enumeration lists every located file. -/
lemma gaf_none (root : String) (t : FSTree) :
    get_all_files_from_path root none t = allLocated root t := by
  rw [gaf_eq, allLocated]
  have h : (fun (pf : String × List String) => (pf.2.map (osJoin pf.1)).filter (keepB none))
      = fun (pf : String × List String) => pf.2.map (osJoin pf.1) := by
    funext pf
    have hk : keepB none = fun _ => true := rfl
    rw [hk, List.filter_true]
  rw [h]

/-- With an extension filter, the enumeration is the located files filtered by
`splitext` extension membership. -/
lemma gaf_some (root : String) (l : List String) (t : FSTree) :
    get_all_files_from_path root (some l) t =
      (allLocated root t).filter (fun fp => decide (splitextExt fp ∈ l)) := by
  rw [gaf_eq, allLocated, List.filter_flatten, List.map_map]
  rfl

/-- One step of the ignore loop appends the file exactly when no ignore entry
matches. -/
lemma ignoreStep_eq (igl : List String) (acc : List String) (f : String) :
    ignoreStep igl acc f =
      acc ++ (if igl.any (fun ig => strContains (dirname f) ig) then [] else [f]) := by
  by_cases h : igl.any (fun ig => strContains (dirname f) ig) <;> simp [ignoreStep, h]

/-- The ignore loop is a filter of the enumerated files. -/
lemma foldl_ignoreStep (igl : List String) :
    ∀ (tmp acc : List String),
      tmp.foldl (ignoreStep igl) acc =
        acc ++ tmp.filter (fun f => !(igl.any (fun ig => strContains (dirname f) ig)))
  | [], acc => by simp
  | f :: fs, acc => by
    rw [List.foldl_cons, ignoreStep_eq, foldl_ignoreStep igl fs]
    by_cases h : igl.any (fun ig => strContains (dirname f) ig) <;>
      simp [h, List.filter_cons, List.append_assoc]

/-- When every read succeeds, the merge loop produces the blank-line-joined
concatenation of the stripped contents after its accumulator. -/
lemma mergeLoop_total (c : String → String) :
    ∀ (files : List String) (merged : String),
      mergeLoop (fun p => some (c p)) files merged =
        some (merged ++ String.join (files.map (fun p => pstrip (c p) ++ "\n\n")))
  | [], merged => by
    rw [List.map_nil]
    have h : String.join ([] : List String) = "" := rfl
    rw [h, String.append_empty]
    rfl
  | fp :: rest, merged => by
    have step : mergeLoop (fun p => some (c p)) (fp :: rest) merged
        = mergeLoop (fun p => some (c p)) rest (merged ++ (pstrip (c fp) ++ "\n\n")) := rfl
    rw [step, mergeLoop_total c rest, List.map_cons, string_join_cons, String.append_assoc]

/-- When every read succeeds, the chunk loop appends the flattened per-file
chunking results to its accumulator and completes. -/
lemma chunkLoop_total (f : String → List String) (c : String → String) :
    ∀ (files chunks : List String),
      chunkLoop f (fun p => some (c p)) files chunks =
        (chunks ++ (files.map (fun p => f (pstrip (c p)))).flatten, true)
  | [], chunks => by simp [chunkLoop]
  | fp :: rest, chunks => by
    have step : chunkLoop f (fun p => some (c p)) (fp :: rest) chunks
        = chunkLoop f (fun p => some (c p)) rest (chunks ++ f (pstrip (c fp))) := rfl
    rw [step, chunkLoop_total f c rest]
    simp [List.append_assoc]

/-- The chunk loop runs through a prefix of successfully readable files,
accumulating their chunks. -/
lemma chunkLoop_front (f : String → List String) (disk : String → Option String)
    (c : String → String) :
    ∀ (pre rest chunks : List String),
      (∀ q ∈ pre, disk q = some (c q)) →
      chunkLoop f disk (pre ++ rest) chunks =
        chunkLoop f disk rest (chunks ++ (pre.map (fun q => f (pstrip (c q)))).flatten)
  | [], rest, chunks, _ => by simp
  | p :: ps, rest, chunks, h => by
    have hp : readStrip disk p = some (pstrip (c p)) := by
      unfold readStrip
      rw [h p (by simp)]
      rfl
    have step : chunkLoop f disk ((p :: ps) ++ rest) chunks
        = chunkLoop f disk (ps ++ rest) (chunks ++ f (pstrip (c p))) := by
      rw [List.cons_append]
      simp only [chunkLoop, hp]
    rw [step, chunkLoop_front f disk c ps rest _ (fun q hq => h q (by simp [hq]))]
    simp [List.append_assoc]

/-- A valid index passes `check_idx`. -/
lemma check_idx_ok (files_list : List String) (idx : Int)
    (h0 : 0 ≤ idx) (hl : idx.toNat < files_list.length) :
    check_idx files_list idx = .ok () := by
  have h : ¬(idx < 0 ∨ (files_list.length : Int) ≤ idx) := by omega
  unfold check_idx
  rw [if_neg h]

/-- Reading a valid index on a disk where every read succeeds returns the
stripped content of the addressed path. -/
lemma get_file_content_ok (c : String → String) (files_list : List String)
    (idx : Int) (p : String) (h0 : 0 ≤ idx) (hp : files_list[idx.toNat]? = some p) :
    get_file_content (fun q => some (c q)) files_list idx = .ok (pstrip (c p)) := by
  have hl : idx.toNat < files_list.length := by
    rw [List.getElem?_eq_some] at hp
    exact hp.1
  have hc := check_idx_ok files_list idx h0 hl
  unfold get_file_content
  rw [hc, hp]
  rfl

/-- A root directory holding the three files `a.md`, `b.txt`, `c.MD`. -/
def treeMd : FSTree := .node .fnil ["a.md", "b.txt", "c.MD"]

/-- A root directory holding a single file literally named `.md`. -/
def treeDotMd : FSTree := .node .fnil [".md"]

/-- A root with subdirectories `data` (holding `x.txt`) and `metadata`
(holding `y.txt`) and no files of its own. -/
def treeData : FSTree :=
  .node (.fcons "data" (.node .fnil ["x.txt"])
    (.fcons "metadata" (.node .fnil ["y.txt"]) .fnil)) []

/-- A disk on which only the file `a` (content `A`) is readable; reading any
other path raises. -/
def diskAB : String → Option String := fun p => if p = "a" then some "A" else none

/-- Claim C1: with no chunking function, `create_chunk` over any file list with
stripped contents `c1, ..., cn` stores as the single element of `chunks` the
concatenation `c1 ++ "\n\n" ++ ... ++ cn ++ "\n\n"` (a blank-line separator
after every file, including the last); for an empty file list the single
element is the empty string. -/
theorem create_chunk_no_chunking_single_concat (c : String → String)
    (files_list : List String) :
    create_chunk none (fun p => some (c p)) files_list =
      ([String.join (files_list.map (fun p => pstrip (c p) ++ "\n\n"))], true) := by
  unfold create_chunk
  rw [mergeLoop_total c files_list "", String.empty_append]

/-- Claim C2: with a chunking function, `create_chunk` stores the flattened
concatenation, in file-list order, of the chunking function applied to each
file's stripped content; a file whose chunking result is empty contributes
nothing. -/
theorem create_chunk_with_chunking_flattens (f : String → List String)
    (c : String → String) (files_list : List String) :
    create_chunk (some f) (fun p => some (c p)) files_list =
      ((files_list.map (fun p => f (pstrip (c p)))).flatten, true) := by
  show chunkLoop f (fun p => some (c p)) files_list [] =
    ((files_list.map (fun p => f (pstrip (c p)))).flatten, true)
  rw [chunkLoop_total f c files_list [], List.nil_append]

/-- Claim C3: for every integer index outside `[0, len(files_list))`, every
index-taking operation (`check_idx`, `get_file_content`,
`get_chunks_from_file`, and the indexed access operator `__getitem__`) raises
`IndexError`; no operation clamps, defaults, or wraps around. -/
theorem invalid_index_raises (disk : String → Option String)
    (chunking_function : Option (String → List String))
    (files_list : List String) (idx : Int)
    (h : idx < 0 ∨ (files_list.length : Int) ≤ idx) :
    check_idx files_list idx = .error .indexError ∧
    get_file_content disk files_list idx = .error .indexError ∧
    get_chunks_from_file chunking_function disk files_list idx = .error .indexError ∧
    getitem disk files_list idx = .error .indexError := by
  have hc : check_idx files_list idx = .error .indexError := by
    unfold check_idx
    rw [if_pos h]
  refine ⟨hc, ?_, ?_, ?_⟩ <;>
    simp [get_file_content, get_chunks_from_file, getitem, hc]

/-- Witness for claim C3 at the concrete inputs `idx = -1` and
`idx = len(files_list)` on the one-element file list `["a"]`. -/
theorem invalid_index_raises_witness :
    (check_idx ["a"] (-1) = .error .indexError ∧
      get_file_content (fun _ => none) ["a"] (-1) = .error .indexError ∧
      get_chunks_from_file none (fun _ => none) ["a"] (-1) = .error .indexError ∧
      getitem (fun _ => none) ["a"] (-1) = .error .indexError) ∧
    (check_idx ["a"] 1 = .error .indexError ∧
      get_file_content (fun _ => none) ["a"] 1 = .error .indexError ∧
      get_chunks_from_file none (fun _ => none) ["a"] 1 = .error .indexError ∧
      getitem (fun _ => none) ["a"] 1 = .error .indexError) :=
  ⟨invalid_index_raises (fun _ => none) none ["a"] (-1) (by decide),
    invalid_index_raises (fun _ => none) none ["a"] 1 (by decide)⟩

/-- Claim C4: with an ignore list, a located file is kept by
`update_files_list` if and only if no ignore entry is a substring of the
file's containing-directory path (plain substring containment); concretely,
with ignore list `["data"]`, both `root/data/x.txt` and `root/metadata/y.txt`
are located and both are excluded. -/
theorem ignore_paths_substring_semantics :
    (∀ (t : FSTree) (root : String) (extf : Option (List String))
        (igl : List String) (f : String),
        f ∈ update_files_list t root extf (some igl) ↔
          f ∈ get_all_files_from_path root extf t ∧
            ∀ ig ∈ igl, strContains (dirname f) ig = false) ∧
    get_all_files_from_path "root" none treeData =
      ["root/data/x.txt", "root/metadata/y.txt"] ∧
    update_files_list treeData "root" none (some ["data"]) = [] := by
  refine ⟨?_, by decide, by decide⟩
  intro t root extf igl f
  have hu : update_files_list t root extf (some igl) =
      (get_all_files_from_path root extf t).filter
        (fun g => !(igl.any (fun ig => strContains (dirname g) ig))) := by
    show (get_all_files_from_path root extf t).foldl (ignoreStep igl) [] =
      (get_all_files_from_path root extf t).filter
        (fun g => !(igl.any (fun ig => strContains (dirname g) ig)))
    rw [foldl_ignoreStep igl, List.nil_append]
  rw [hu, List.mem_filter]
  simp [List.any_eq_false]

/-- Counterexample for claim C5 as stated: with the spec's notion of extension
("the substring of the filename starting at the last dot"), the kept-iff
characterization fails on a file literally named `.md` — its spec-extension is
`.md` and it is located, yet `os.path.splitext` assigns it the empty extension
and the code drops it from the result. -/
theorem extension_filter_claim_counterexample :
    ¬ (∀ (root : String) (t : FSTree) (l : List String) (f : String),
        f ∈ get_all_files_from_path root (some l) t ↔
          f ∈ allLocated root t ∧ extSpec f ∈ l) := by
  intro hclaim
  have h1 : ("root/.md" : String) ∈ allLocated "root" treeDotMd ∧
      extSpec "root/.md" ∈ [".md"] := by decide
  have h2 := (hclaim "root" treeDotMd [".md"] "root/.md").mpr h1
  have h3 : get_all_files_from_path "root" (some [".md"]) treeDotMd = [] := by decide
  rw [h3] at h2
  exact List.not_mem_nil _ h2

/-- Claim C5 (amended): with an extension filter, a located file is kept if and
only if its extension as computed by `os.path.splitext` — the suffix of the
basename from its last dot, where leading dots of the basename never start an
extension — is an exact, case-sensitive member of the filter; with no filter
every located file is kept; over `a.md, b.txt, c.MD` the filter `[".md"]`
yields exactly `root/a.md`. -/
theorem extension_filter_splitext :
    (∀ (root : String) (t : FSTree) (l : List String) (f : String),
        f ∈ get_all_files_from_path root (some l) t ↔
          f ∈ allLocated root t ∧ splitextExt f ∈ l) ∧
    (∀ (root : String) (t : FSTree),
        get_all_files_from_path root none t = allLocated root t) ∧
    get_all_files_from_path "root" (some [".md"]) treeMd = ["root/a.md"] := by
  refine ⟨?_, gaf_none, by decide⟩
  intro root t l f
  rw [gaf_some, List.mem_filter]
  simp

/-- Counterexample for claim C6: on the file list `["a", "b"]` where reading
`b` raises, the rebuild with an identity-like chunking function escapes with
`chunks = ["A"]` — a nonempty, partially populated chunk list, not an
all-or-nothing abort. -/
theorem create_chunk_not_atomic_counterexample :
    create_chunk (some (fun s => [s])) diskAB ["a", "b"] = (["A"], false) ∧
    ¬ ((create_chunk (some (fun s => [s])) diskAB ["a", "b"]).2 = false →
        (create_chunk (some (fun s => [s])) diskAB ["a", "b"]).1 = []) := by
  refine ⟨by decide, by decide⟩

/-- Claim C6 (amended): when a read fails during a chunking-function rebuild,
the operation aborts with `chunks` left holding exactly the flattened chunks of
the files processed before the failing one — the rebuild is not atomic on
failure. -/
theorem create_chunk_failure_partial (f : String → List String)
    (disk : String → Option String) (c : String → String)
    (pre post : List String) (p : String)
    (hpre : ∀ q ∈ pre, disk q = some (c q)) (hp : disk p = none) :
    create_chunk (some f) disk (pre ++ p :: post) =
      ((pre.map (fun q => f (pstrip (c q)))).flatten, false) := by
  show chunkLoop f disk (pre ++ p :: post) [] =
    ((pre.map (fun q => f (pstrip (c q)))).flatten, false)
  rw [chunkLoop_front f disk c pre (p :: post) [] hpre]
  have hr : readStrip disk p = none := by
    unfold readStrip
    rw [hp]
    rfl
  simp [chunkLoop, hr]

/-- Witness for the amended claim C6 at file list `["a", "b"]` on a disk where
`a` reads as `A` and `b` fails. -/
theorem create_chunk_failure_partial_witness :
    (∀ q ∈ ["a"], diskAB q = some ((fun _ => "A") q)) ∧ diskAB "b" = none ∧
    create_chunk (some (fun s => [s])) diskAB (["a"] ++ "b" :: []) =
      ((["a"].map (fun q => (fun s => [s]) (pstrip ((fun _ => "A") q)))).flatten, false) :=
  ⟨by decide, by decide,
    create_chunk_failure_partial (fun s => [s]) diskAB (fun _ => "A") ["a"] [] "b"
      (by decide) (by decide)⟩

/-- Claim C7: for every valid index, `get_file_content` returns exactly the
stripped disk content of the path at that position of the file list, and the
indexed access operator `__getitem__` returns the same value. -/
theorem get_file_content_valid (c : String → String) (files_list : List String)
    (idx : Int) (p : String) (h0 : 0 ≤ idx) (hp : files_list[idx.toNat]? = some p) :
    get_file_content (fun q => some (c q)) files_list idx = .ok (pstrip (c p)) ∧
    getitem (fun q => some (c q)) files_list idx = .ok (pstrip (c p)) := by
  have hg := get_file_content_ok c files_list idx p h0 hp
  have hl : idx.toNat < files_list.length := by
    rw [List.getElem?_eq_some] at hp
    exact hp.1
  have hc := check_idx_ok files_list idx h0 hl
  exact ⟨hg, by simp [getitem, hc, hg]⟩

/-- Witness for claim C7 at index 0 of the file list `["hi"]` on an identity
disk. -/
theorem get_file_content_valid_witness :
    ((0 : Int) ≤ 0 ∧ ["hi"][(0 : Int).toNat]? = some "hi") ∧
    get_file_content (fun q => some q) ["hi"] 0 = .ok (pstrip "hi") ∧
    getitem (fun q => some q) ["hi"] 0 = .ok (pstrip "hi") :=
  ⟨⟨by decide, by decide⟩,
    get_file_content_valid (fun r => r) ["hi"] 0 "hi" (by decide) (by decide)⟩

/-- Claim C8: rescanning is idempotent — running
`update_files_list_and_create_chunks` twice with identical arguments on an
unchanged filesystem leaves `files_list` and `chunks` identical to their
values after the first run (both are wholesale functions of the arguments). -/
theorem rescan_idempotent (t : FSTree) (root : String)
    (file_extension_filter paths_to_ignore_list : Option (List String))
    (chunking_function : Option (String → List String))
    (disk : String → Option String) (s : ScraperState) :
    update_files_list_and_create_chunks t root file_extension_filter
        paths_to_ignore_list chunking_function disk
        (update_files_list_and_create_chunks t root file_extension_filter
          paths_to_ignore_list chunking_function disk s).1 =
      update_files_list_and_create_chunks t root file_extension_filter
        paths_to_ignore_list chunking_function disk s := rfl

/-- Claim C9: for every valid index, `get_chunks_from_file` returns the
chunking function's output on that single file's stripped content when one is
configured, and returns Python `None` (modelled `.ok none` — neither a list
nor an error) when none is configured. -/
theorem get_chunks_from_file_valid (f : String → List String) (c : String → String)
    (files_list : List String) (idx : Int) (p : String)
    (h0 : 0 ≤ idx) (hp : files_list[idx.toNat]? = some p) :
    get_chunks_from_file (some f) (fun q => some (c q)) files_list idx =
      .ok (some (f (pstrip (c p)))) ∧
    get_chunks_from_file none (fun q => some (c q)) files_list idx = .ok none := by
  have hl : idx.toNat < files_list.length := by
    rw [List.getElem?_eq_some] at hp
    exact hp.1
  have hc := check_idx_ok files_list idx h0 hl
  have hg := get_file_content_ok c files_list idx p h0 hp
  constructor <;> simp [get_chunks_from_file, hc, hg]

/-- Witness for claim C9 at index 0 of the file list `["hi"]` on an identity
disk, with a singleton-list chunking function. -/
theorem get_chunks_from_file_valid_witness :
    ((0 : Int) ≤ 0 ∧ ["hi"][(0 : Int).toNat]? = some "hi") ∧
    get_chunks_from_file (some (fun s => [s])) (fun q => some q) ["hi"] 0 =
      .ok (some [pstrip "hi"]) ∧
    get_chunks_from_file none (fun q => some q) ["hi"] 0 = .ok none :=
  ⟨⟨by decide, by decide⟩,
    get_chunks_from_file_valid (fun s => [s]) (fun r => r) ["hi"] 0 "hi"
      (by decide) (by decide)⟩

/-- Claim C10: an extension filter that is present but empty matches no file,
so enumeration under any root yields an empty file list, as does
`update_files_list` with any ignore list; this differs from an absent filter,
which keeps every file (nonempty on the `a.md, b.txt, c.MD` tree). -/
theorem empty_extension_filter_empty_result :
    (∀ (t : FSTree) (root : String), get_all_files_from_path root (some []) t = []) ∧
    (∀ (t : FSTree) (root : String) (ign : Option (List String)),
        update_files_list t root (some []) ign = []) ∧
    get_all_files_from_path "root" none treeMd =
      ["root/a.md", "root/b.txt", "root/c.MD"] := by
  have hmain : ∀ (t : FSTree) (root : String),
      get_all_files_from_path root (some []) t = [] := by
    intro t root
    rw [gaf_some]
    have h : (fun fp => decide (splitextExt fp ∈ ([] : List String)))
        = fun (_ : String) => false := by
      funext fp
      simp
    rw [h]
    exact List.filter_false _
  refine ⟨hmain, ?_, by decide⟩
  intro t root ign
  cases ign with
  | none =>
    show get_all_files_from_path root (some []) t = []
    exact hmain t root
  | some igl =>
    show (get_all_files_from_path root (some []) t).foldl (ignoreStep igl) [] = []
    rw [hmain t root]
    rfl
